import Mathlib

/-!
# Verification of the papercraft mesh-unfolding core

Shallow embedding of `src/unfold.c` and `src/stl_3d.c`:

* C `float` coordinates are embedded as rationals (`ℚ`); arithmetic on the
  coordinates in the embedded routines is subtraction and comparison only.
* The `face_t` neighbor arrays `face_t *next[3]` / `int next_edge[3]` are
  embedded as three `Option (ℕ × Fin 3)` fields (a NULL pointer is `none`;
  a face pointer is the face's index in the `faces` array).  The `coplanar`
  flags are written from the stub `coplanar_check` (always 0) and never read
  by any routine in the sources, so they are not carried in the state.
* `recurse` in the C source prints a record per face and recurses through the
  neighbor slots; the embedding accumulates the record list and the set of
  `used` faces, and makes the two possible crashes explicit: dereferencing a
  NULL `f2` in `f2->used` (`Fault.nullDeref`) and exhaustion of the recursion
  bound used to define the function (`Fault.fuelOut`, unreachable for
  sufficient fuel).  The side lengths in a record come from `v3_len` (a
  `sqrt`, irrelevant to every claim) and are not carried.
-/

/-- The constant `#define EPS 0.0001` from `src/unfold.c`. -/
def EPS : ℚ := 1 / 10000

/-- Type `v3_t` from `src/unfold.c`: three coordinates `p[0]`, `p[1]`, `p[2]`. -/
structure v3_t where
  p : Fin 3 → ℚ

/-- Function `v3_eq` from `src/unfold.c`: per-axis strict epsilon comparison. -/
def v3_eq (v1 v2 : v3_t) : Bool :=
  let dx := v1.p 0 - v2.p 0
  let dy := v1.p 1 - v2.p 1
  let dz := v1.p 2 - v2.p 2
  decide (-EPS < dx) && decide (dx < EPS) &&
  (decide (-EPS < dy) && decide (dy < EPS)) &&
  (decide (-EPS < dz) && decide (dz < EPS))

/-- Type `stl_face_t` from `src/unfold.c`: the three corner points `p[0..2]`
(the `normal` and `attr` fields are never read by the embedded routines). -/
structure stl_face_t where
  p : Fin 3 → v3_t

instance : Inhabited v3_t := ⟨⟨fun _ => 0⟩⟩
instance : Inhabited stl_face_t := ⟨⟨fun _ => default⟩⟩

/-- Function `edge_eq2` from `src/unfold.c`: the oriented edge `(e0, e0+1 mod 3)` of
`t0` matches the oriented edge `(e1, e1+1 mod 3)` of `t1` iff the first
corner of one equals the second corner of the other, in both directions
(addition on `Fin 3` is mod 3). -/
def edge_eq2 (t0 t1 : stl_face_t) (e0 e1 : Fin 3) : Bool :=
  v3_eq (t0.p e0) (t1.p (e1 + 1)) && v3_eq (t0.p (e0 + 1)) (t1.p e1)

/-- Type `face_t` from `src/unfold.c`, restricted to the fields the embedded
routines read: the three neighbor slots.  Slot `e` combines `next[e]`
(NULL ↦ `none`, a face pointer ↦ the face index) and `next_edge[e]`. -/
structure face_t where
  next0 : Option (ℕ × Fin 3)
  next1 : Option (ℕ × Fin 3)
  next2 : Option (ℕ × Fin 3)
deriving DecidableEq

/-- A zero-initialized (`calloc`) face: all three neighbor pointers NULL. -/
def face_t.empty : face_t := ⟨none, none, none⟩

/-- Read neighbor slot `e` (`f->next[e]` / `f->next_edge[e]`). -/
def face_t.next (f : face_t) (e : Fin 3) : Option (ℕ × Fin 3) :=
  if e = 0 then f.next0 else if e = 1 then f.next1 else f.next2

/-- Write neighbor slot `e`. -/
def face_t.setNext (f : face_t) (e : Fin 3) (v : Option (ℕ × Fin 3)) : face_t :=
  if e = 0 then { f with next0 := v }
  else if e = 1 then { f with next1 := v }
  else { f with next2 := v }

/-- The `faces` array of `main` in `src/unfold.c`. -/
abbrev AdjState := List face_t

/-- Reading `faces[i].next[e]` (reading a zeroed face out of range, which the C code
never does for in-range meshes). -/
def nextAt (st : AdjState) (i : ℕ) (e : Fin 3) : Option (ℕ × Fin 3) :=
  (st.getD i face_t.empty).next e

/-- Writing `faces[i].next[e] = f2; faces[i].next_edge[e] = e2;` as one update. -/
def writeAt (st : AdjState) (i : ℕ) (e : Fin 3) (v : ℕ × Fin 3) : AdjState :=
  st.set i ((st.getD i face_t.empty).setNext e (some v))

/-- The face at index `i` of the parsed STL triangle array. -/
def faceAt (fs : List stl_face_t) (i : ℕ) : stl_face_t := fs.getD i default

/-- The fixed edge iteration order `for (edge = 0; edge < 3; edge++)`. -/
def edgeList : List (Fin 3) := [0, 1, 2]

/-- Body of the innermost loop of the adjacency pass of `main`
(`src/unfold.c` lines 233-248): skip a filled slot of `f2`, test
`edge_eq2`, and on a match link both directions (`coplanar_check`, a stub
returning 0, writes flags no routine reads). -/
def tryMatch (fs : List stl_face_t) (i j : ℕ) (e : Fin 3) (st : AdjState) (e2 : Fin 3) :
    AdjState :=
  if nextAt st j e2 ≠ none then st
  else if edge_eq2 (faceAt fs i) (faceAt fs j) e e2 then
    writeAt (writeAt st i e (j, e2)) j e2 (i, e)
  else st

/-- The `edge` loop of the adjacency pass (`src/unfold.c` lines 228-249):
the filled-slot check on `f` happens once, before the `edge2` loop. -/
def matchEdge (fs : List stl_face_t) (i j : ℕ) (st : AdjState) (e : Fin 3) : AdjState :=
  if nextAt st i e ≠ none then st else edgeList.foldl (tryMatch fs i j e) st

/-- The `j` loop body of the adjacency pass (`src/unfold.c` lines 220-250):
skip `i == j`, then scan the three edges. -/
def matchPair (fs : List stl_face_t) (i : ℕ) (st : AdjState) (j : ℕ) : AdjState :=
  if i = j then st else edgeList.foldl (matchEdge fs i j) st

/-- The `j` loop of the adjacency pass for face `i`. -/
def pairLoop (fs : List stl_face_t) (st : AdjState) (i : ℕ) : AdjState :=
  (List.range fs.length).foldl (matchPair fs i) st

/-- One iteration of the outer `i` loop (`src/unfold.c` lines 215-256):
run the `j` loop, then emit the `"%d: missing edges?"` diagnostic when a
neighbor slot of face `i` remains empty.  The diagnostic is recorded as the
face index, which is all the C `fprintf` emits. -/
def buildStep (fs : List stl_face_t) (st : AdjState × List ℕ) (i : ℕ) : AdjState × List ℕ :=
  let a := pairLoop fs st.1 i
  if nextAt a i 0 ≠ none ∧ nextAt a i 1 ≠ none ∧ nextAt a i 2 ≠ none then (a, st.2)
  else (a, st.2 ++ [i])

/-- The zero-initialized `faces` array (`calloc(num_triangles, sizeof(*faces))`). -/
def initState (fs : List stl_face_t) : AdjState := List.replicate fs.length face_t.empty

/-- The whole adjacency pass of `main`: final `faces` array and the list of
faces for which the missing-edges diagnostic fired. -/
def build (fs : List stl_face_t) : AdjState × List ℕ :=
  (List.range fs.length).foldl (buildStep fs) (initState fs, [])

/-- Neighbor slot `e` of face `i` after the adjacency pass completes. -/
def buildAdj (fs : List stl_face_t) (i : ℕ) (e : Fin 3) : Option (ℕ × Fin 3) :=
  nextAt (build fs).1 i e

/-- The ways a run of `recurse` can fail to return: dereferencing a NULL
neighbor pointer in `f2->used` (`src/unfold.c` line 161), or exhausting the
recursion bound of the embedding. -/
inductive Fault
  | nullDeref
  | fuelOut
deriving DecidableEq

/-- Traversal state: the `used` flags of the faces array (as the list of
face indices with `used = 1`; `f->used = 1` on an already-used face is the
idempotent `List.insert`) and the sequence of records printed so far, each
`(face index, start_edge)` (`src/unfold.c` line 155; the edge lengths also
printed there are not carried, see the header comment). -/
structure TState where
  vis : List ℕ
  out : List (ℕ × ℤ)
deriving DecidableEq

/-- The `for (edge = 0; edge < 3; edge++)` loop of `recurse`
(`src/unfold.c` lines 158-165): a NULL `f->next[edge]` is dereferenced by
`f2->used` (fault), a used neighbor is skipped, an unused one is entered
through `recfn` — the recursive call, with `f->next_edge[edge]` as its
`start_edge` — whose return value the C discards. -/
def recurseEdges (st : AdjState) (recfn : ℕ → ℤ → TState → TState × Option Fault)
    (i : ℕ) : List (Fin 3) → TState → TState × Option Fault
  | [], s => (s, none)
  | e :: es', s =>
    match nextAt st i e with
    | none => (s, some Fault.nullDeref)
    | some je =>
      if je.1 ∈ s.vis then recurseEdges st recfn i es' s
      else
        match recfn je.1 (je.2 : ℤ) s with
        | (s2, none) => recurseEdges st recfn i es' s2
        | (s2, some f) => (s2, some f)

/-- Function `recurse` from `src/unfold.c` (lines 140-169): mark the face used, print
its record, then walk the three neighbor slots in order. -/
def recurse (st : AdjState) (fuel : ℕ) : ℕ → ℤ → TState → TState × Option Fault :=
  match fuel with
  | 0 => fun _ _ s => (s, some Fault.fuelOut)
  | fuel' + 1 => fun i enter s =>
    recurseEdges st (recurse st fuel') i edgeList ⟨s.vis.insert i, s.out ++ [(i, enter)]⟩

/-- The traversal as `main` invokes it (`recurse(&faces[0], 0)`,
`src/unfold.c` line 262), generalized over the root face index; `main`
itself uses root 0 and passes `0` as the root's `start_edge`.  The fuel
`fs.length + 1` is shown sufficient whenever the C recursion terminates. -/
def runTraverse (fs : List stl_face_t) (r : ℕ) : TState × Option Fault :=
  recurse (build fs).1 (fs.length + 1) r 0 ⟨[], []⟩

/-- The value `recurse` hands back to its caller: the only `return`
statement its body can reach is `return 0` (`src/unfold.c` line 168,
comment `// no success`), independent of how many faces were visited;
`main` discards it. -/
def recurseReturn : ℤ := 0

/-- Function `stl_vertex_find` from `src/stl_3d.c`, as its effect on the unique
vertex list: scan in first-insertion order for a `v3_eq`-equal vertex,
append the point if none is found.  (`v3_eq` itself lives outside `src/`
for this translation unit; the identical per-axis routine of
`src/unfold.c`, which spec §3 specifies for both, is used.) -/
def stl_vertex_find (vs : List v3_t) (p : v3_t) : List v3_t :=
  if vs.any (fun v => v3_eq v p) then vs else vs ++ [p]

/-- The vertex-deduplication loop of `stl_3d_parse` (`src/stl_3d.c` lines
150-173): for each triangle, find-or-insert its three corners in order. -/
def uniqueVertices (ts : List stl_face_t) : List v3_t :=
  ts.foldl
    (fun vs t => stl_vertex_find (stl_vertex_find (stl_vertex_find vs (t.p 0)) (t.p 1)) (t.p 2))
    []

/-- One step of the face-adjacency relation of the dual graph produced by
the adjacency pass. -/
def adjStep (fs : List stl_face_t) (i j : ℕ) : Prop :=
  ∃ e e2, buildAdj fs i e = some (j, e2)

/-- Construct a point. -/
def pt (x y z : ℚ) : v3_t := ⟨![x, y, z]⟩

/-- Construct a triangle from its three corners in winding order. -/
def tri (a b c : v3_t) : stl_face_t := ⟨![a, b, c]⟩

/-- A closed two-face mesh: a triangle and its reversal share all three
edges with opposite winding, so every neighbor slot gets filled. -/
def pillow : List stl_face_t :=
  [tri (pt 0 0 0) (pt 1 0 0) (pt 0 1 0),
   tri (pt 0 0 0) (pt 0 1 0) (pt 1 0 0)]

/-- A single isolated triangle: no neighbor slot can be filled. -/
def tri1 : List stl_face_t := [tri (pt 0 0 0) (pt 1 0 0) (pt 0 1 0)]

/-- Two faces with repeated corners: edge 0 of face 0 `edge_eq2`-matches
all three edges of the fully degenerate face 1. -/
def badPair : List stl_face_t :=
  [tri (pt 0 0 0) (pt 0 0 0) (pt 1 0 0),
   tri (pt 0 0 0) (pt 0 0 0) (pt 0 0 0)]

/-- A connected open strip of three triangles; face 0 keeps an empty
neighbor slot at edge 0. -/
def fan3 : List stl_face_t :=
  [tri (pt 0 0 0) (pt 1 0 0) (pt 0 1 0),
   tri (pt 0 1 0) (pt 1 0 0) (pt 1 1 0),
   tri (pt 1 1 0) (pt 1 0 0) (pt 2 0 0)]

/-- Two disjoint closed components: `pillow` and a copy translated by 10
on the x axis (far beyond `EPS`). -/
def twoPillows : List stl_face_t :=
  pillow ++
  [tri (pt 10 0 0) (pt 11 0 0) (pt 10 1 0),
   tri (pt 10 0 0) (pt 10 1 0) (pt 11 0 0)]

/-- Invariant of every intermediate state of the adjacency pass: the array
has one entry per triangle, and every filled slot `(p, pe) ↦ (q, qe)` joins
two distinct in-range faces whose oriented edges `pe` and `qe` match. -/
def AdjInv (fs : List stl_face_t) (st : AdjState) : Prop :=
  st.length = fs.length ∧
  ∀ p q : ℕ, ∀ pe qe : Fin 3, nextAt st p pe = some (q, qe) →
    p < fs.length ∧ q < fs.length ∧ p ≠ q ∧
    edge_eq2 (faceAt fs p) (faceAt fs q) pe qe = true

/-- The symmetry property of the neighbor links (spec §3 invariant 2). -/
def SymSt (st : AdjState) : Prop :=
  ∀ p q : ℕ, ∀ pe qe : Fin 3, nextAt st p pe = some (q, qe) → nextAt st q qe = some (p, pe)

/-- The adjacency pass can only pair each edge of a face with one edge per
other face: for distinct in-range faces `i`, `j` and each edge `e` of `i`,
at most one edge of `j` passes the oriented-edge test.  (A mesh with
duplicate or degenerate triangles can violate this; `badPair` below does.) -/
def UniqueMatch (fs : List stl_face_t) : Prop :=
  ∀ i : ℕ, i < fs.length → ∀ j : ℕ, j < fs.length → i ≠ j →
    ∀ e e2 e2' : Fin 3, edge_eq2 (faceAt fs i) (faceAt fs j) e e2 = true →
      edge_eq2 (faceAt fs i) (faceAt fs j) e e2' = true → e2 = e2'

/-- What one traversal call does to the state, faulting or not: the visited
list only grows, the output is extended by records of pairwise-distinct
faces none of which was visited before, and the new visited faces are
exactly the newly emitted ones. -/
def TPost (s s' : TState) : Prop :=
  (∀ x, x ∈ s.vis → x ∈ s'.vis) ∧
  ∃ d : List (ℕ × ℤ), s'.out = s.out ++ d ∧ (d.map Prod.fst).Nodup ∧
    (∀ x, x ∈ d.map Prod.fst → x ∉ s.vis) ∧
    (∀ x : ℕ, x ∈ s'.vis ↔ x ∈ d.map Prod.fst ∨ x ∈ s.vis)

/-- Property of a record `(face, start_edge)`: its `start_edge` is the
matching-edge index stored in some neighbor slot that points at `face`. -/
def EnterFromSlot (st : AdjState) (rec : ℕ × ℤ) : Prop :=
  ∃ p : ℕ, ∃ e e2 : Fin 3, nextAt st p e = some (rec.1, e2) ∧ rec.2 = (e2 : ℤ)

/-- Every face newly visited by a completed call has all the faces behind
its filled neighbor slots visited on return. -/
def ClosT (st : AdjState) (s s' : TState) : Prop :=
  ∀ x : ℕ, x ∈ s'.vis → x ∉ s.vis → ∀ e : Fin 3, ∀ j : ℕ, ∀ e2 : Fin 3,
    nextAt st x e = some (j, e2) → j ∈ s'.vis

/-- All `n` faces have all three neighbor slots filled (a closed mesh). -/
def ClosedAdj (st : AdjState) (n : ℕ) : Prop :=
  ∀ i, i < n → ∀ e : Fin 3, nextAt st i e ≠ none

/-- Every filled slot points at a face index below `n`. -/
def InRangeAdj (st : AdjState) (n : ℕ) : Prop :=
  ∀ i : ℕ, ∀ e : Fin 3, ∀ j : ℕ, ∀ e2 : Fin 3, nextAt st i e = some (j, e2) → j < n

/-! ## Basic facts about slot reads and writes -/

theorem next_setNext_self (f : face_t) (e : Fin 3) (v : Option (ℕ × Fin 3)) :
    (f.setNext e v).next e = v := by
  fin_cases e <;> simp [face_t.next, face_t.setNext]

theorem next_setNext_ne (f : face_t) (e e' : Fin 3) (v : Option (ℕ × Fin 3)) (h : e' ≠ e) :
    (f.setNext e v).next e' = f.next e' := by
  fin_cases e <;> fin_cases e' <;> simp_all [face_t.next, face_t.setNext]

theorem next_empty (e : Fin 3) : face_t.empty.next e = none := by
  fin_cases e <;> rfl

theorem length_writeAt (st : AdjState) (i : ℕ) (e : Fin 3) (v : ℕ × Fin 3) :
    (writeAt st i e v).length = st.length := by
  simp [writeAt]

theorem getD_set_self (l : List face_t) (i : ℕ) (a d : face_t) (h : i < l.length) :
    (l.set i a).getD i d = a := by
  rw [List.getD_eq_getElem _ _ (by simpa using h)]
  exact List.getElem_set_self _

theorem getD_set_ne (l : List face_t) (i p : ℕ) (a d : face_t) (h : p ≠ i) :
    (l.set i a).getD p d = l.getD p d := by
  by_cases hp : p < l.length
  · rw [List.getD_eq_getElem _ _ (by simpa using hp), List.getD_eq_getElem _ _ hp]
    exact List.getElem_set_ne (fun hh => h hh.symm) _
  · rw [List.getD_eq_default _ _ (by simpa using Nat.le_of_not_lt hp),
      List.getD_eq_default _ _ (Nat.le_of_not_lt hp)]

theorem nextAt_writeAt_self (st : AdjState) (i : ℕ) (e : Fin 3) (v : ℕ × Fin 3)
    (h : i < st.length) : nextAt (writeAt st i e v) i e = some v := by
  unfold nextAt writeAt
  rw [getD_set_self _ _ _ _ h, next_setNext_self]

theorem nextAt_writeAt_ne (st : AdjState) (i p : ℕ) (e pe : Fin 3) (v : ℕ × Fin 3)
    (h : ¬(p = i ∧ pe = e)) : nextAt (writeAt st i e v) p pe = nextAt st p pe := by
  unfold nextAt writeAt
  by_cases hp : p = i
  · subst hp
    have hpe : pe ≠ e := fun he => h ⟨rfl, he⟩
    by_cases hl : p < st.length
    · rw [getD_set_self _ _ _ _ hl, next_setNext_ne _ _ _ _ hpe]
    · rw [List.getD_eq_default _ _ (by simpa using Nat.le_of_not_lt hl),
        List.getD_eq_default _ _ (Nat.le_of_not_lt hl)]
  · rw [getD_set_ne _ _ _ _ _ hp]

theorem nextAt_initState (fs : List stl_face_t) (p : ℕ) (pe : Fin 3) :
    nextAt (initState fs) p pe = none := by
  unfold nextAt initState
  by_cases h : p < fs.length
  · rw [List.getD_eq_getElem _ _ (by simpa using h), List.getElem_replicate]
    exact next_empty pe
  · rw [List.getD_eq_default _ _ (by simpa using Nat.le_of_not_lt h)]
    exact next_empty pe

/-- Fold preservation of a predicate. -/
theorem foldl_preserve {α β : Type} (P : β → Prop) (f : β → α → β) (l : List α)
    (h : ∀ b a, a ∈ l → P b → P (f b a)) (b : β) (hb : P b) : P (l.foldl f b) := by
  induction l generalizing b with
  | nil => exact hb
  | cons x xs ih =>
    exact ih (fun b a ha hb => h b a (List.mem_cons_of_mem _ ha) hb) _
      (h b x (List.mem_cons_self _ _) hb)

/-! ## Facts about vertex and edge equality -/

theorem v3_eq_true_iff (v1 v2 : v3_t) :
    v3_eq v1 v2 = true ↔
      |v1.p 0 - v2.p 0| < EPS ∧ |v1.p 1 - v2.p 1| < EPS ∧ |v1.p 2 - v2.p 2| < EPS := by
  simp only [v3_eq, Bool.and_eq_true, decide_eq_true_eq, abs_lt, neg_lt]
  constructor
  · rintro ⟨⟨⟨h1, h2⟩, h3, h4⟩, h5, h6⟩
    exact ⟨⟨by linarith, h2⟩, ⟨by linarith, h4⟩, by linarith, h6⟩
  · rintro ⟨⟨h1, h2⟩, ⟨h3, h4⟩, h5, h6⟩
    exact ⟨⟨⟨by linarith, h2⟩, by linarith, h4⟩, by linarith, h6⟩

theorem v3_eq_symm (v1 v2 : v3_t) : v3_eq v1 v2 = v3_eq v2 v1 := by
  by_cases h : v3_eq v1 v2 = true
  · have h2 : v3_eq v2 v1 = true := by
      rw [v3_eq_true_iff] at h ⊢
      rw [abs_sub_comm (v2.p 0), abs_sub_comm (v2.p 1), abs_sub_comm (v2.p 2)]
      exact h
    rw [h, h2]
  · have h2 : ¬ v3_eq v2 v1 = true := by
      rw [v3_eq_true_iff] at h ⊢
      rw [abs_sub_comm (v2.p 0), abs_sub_comm (v2.p 1), abs_sub_comm (v2.p 2)]
      exact h
    rw [Bool.eq_false_iff.mpr h, Bool.eq_false_iff.mpr h2]

theorem edge_eq2_symm (t0 t1 : stl_face_t) (e0 e1 : Fin 3) :
    edge_eq2 t1 t0 e1 e0 = edge_eq2 t0 t1 e0 e1 := by
  unfold edge_eq2
  rw [v3_eq_symm (t1.p e1), v3_eq_symm (t1.p (e1 + 1)), Bool.and_comm]

/-! ## The adjacency-pass invariant: links are in range, never self, and
record a real oriented-edge match -/

theorem AdjInv_tryMatch (fs : List stl_face_t) (i j : ℕ) (e e2 : Fin 3) (st : AdjState)
    (hi : i < fs.length) (hj : j < fs.length) (hij : i ≠ j) (hinv : AdjInv fs st) :
    AdjInv fs (tryMatch fs i j e st e2) := by
  unfold tryMatch
  split
  · exact hinv
  · split
    case isTrue heq =>
      obtain ⟨hlen, hslots⟩ := hinv
      have hilen : i < st.length := hlen ▸ hi
      have hjlen : j < (writeAt st i e (j, e2)).length := by
        rw [length_writeAt]; exact hlen ▸ hj
      refine ⟨by rw [length_writeAt, length_writeAt]; exact hlen, ?_⟩
      intro p q pe qe hread
      by_cases hpj : p = j ∧ pe = e2
      · obtain ⟨hp, hpe⟩ := hpj
        subst hp; subst hpe
        rw [nextAt_writeAt_self _ _ _ _ hjlen] at hread
        obtain ⟨hq, hqe⟩ : i = q ∧ e = qe :=
          ⟨congrArg Prod.fst (Option.some.inj hread), congrArg Prod.snd (Option.some.inj hread)⟩
        subst hq; subst hqe
        exact ⟨hj, hi, fun hh => hij hh.symm, by rw [edge_eq2_symm]; exact heq⟩
      · rw [nextAt_writeAt_ne _ _ _ _ _ _ hpj] at hread
        by_cases hpi : p = i ∧ pe = e
        · obtain ⟨hp, hpe⟩ := hpi
          subst hp; subst hpe
          rw [nextAt_writeAt_self _ _ _ _ hilen] at hread
          obtain ⟨hq, hqe⟩ : j = q ∧ e2 = qe :=
            ⟨congrArg Prod.fst (Option.some.inj hread), congrArg Prod.snd (Option.some.inj hread)⟩
          subst hq; subst hqe
          exact ⟨hi, hj, hij, heq⟩
        · rw [nextAt_writeAt_ne _ _ _ _ _ _ hpi] at hread
          exact hslots p q pe qe hread
    · exact hinv

theorem AdjInv_matchEdge (fs : List stl_face_t) (i j : ℕ) (e : Fin 3) (st : AdjState)
    (hi : i < fs.length) (hj : j < fs.length) (hij : i ≠ j) (hinv : AdjInv fs st) :
    AdjInv fs (matchEdge fs i j st e) := by
  unfold matchEdge
  split
  · exact hinv
  · exact foldl_preserve (AdjInv fs) _ _
      (fun st' e2 _ h => AdjInv_tryMatch fs i j e e2 st' hi hj hij h) st hinv

theorem AdjInv_matchPair (fs : List stl_face_t) (i j : ℕ) (st : AdjState)
    (hi : i < fs.length) (hj : j < fs.length) (hinv : AdjInv fs st) :
    AdjInv fs (matchPair fs i st j) := by
  unfold matchPair
  split
  · exact hinv
  case isFalse hij =>
    exact foldl_preserve (AdjInv fs) _ _
      (fun st' e _ h => AdjInv_matchEdge fs i j e st' hi hj hij h) st hinv

theorem AdjInv_pairLoop (fs : List stl_face_t) (i : ℕ) (st : AdjState)
    (hi : i < fs.length) (hinv : AdjInv fs st) : AdjInv fs (pairLoop fs st i) := by
  unfold pairLoop
  exact foldl_preserve (AdjInv fs) _ _
    (fun st' j hjmem h => AdjInv_matchPair fs i j st' hi (List.mem_range.mp hjmem) h) st hinv

theorem buildStep_fst (fs : List stl_face_t) (stp : AdjState × List ℕ) (i : ℕ) :
    (buildStep fs stp i).1 = pairLoop fs stp.1 i := by
  simp only [buildStep]
  split <;> rfl

theorem AdjInv_build (fs : List stl_face_t) : AdjInv fs (build fs).1 := by
  unfold build
  have hinit : AdjInv fs (initState fs) := by
    refine ⟨by simp [initState], ?_⟩
    intro p q pe qe hread
    rw [nextAt_initState] at hread
    exact absurd hread (by simp)
  have hstep : ∀ stp : AdjState × List ℕ, ∀ i, i ∈ List.range fs.length →
      AdjInv fs stp.1 → AdjInv fs (buildStep fs stp i).1 := by
    intro stp i hmem h
    rw [buildStep_fst]
    exact AdjInv_pairLoop fs i stp.1 (List.mem_range.mp hmem) h
  exact foldl_preserve (fun stp => AdjInv fs stp.1) _ _ hstep (initState fs, []) hinit

/-! ## Symmetry of the adjacency links -/

/-- One matched write (both directions of a link set together) preserves
symmetry, provided both slots were empty beforehand. -/
theorem SymSt_write (st : AdjState) (i j : ℕ) (e e2 : Fin 3) (hs : SymSt st) (hij : i ≠ j)
    (hi : i < st.length) (hj : j < st.length)
    (hie : nextAt st i e = none) (hje : nextAt st j e2 = none) :
    SymSt (writeAt (writeAt st i e (j, e2)) j e2 (i, e)) := by
  have hlen1 : (writeAt st i e (j, e2)).length = st.length := length_writeAt ..
  have hij' : ¬((i : ℕ) = j ∧ (e : Fin 3) = e2) := fun hh => hij hh.1
  have hji' : ¬((j : ℕ) = i ∧ (e2 : Fin 3) = e) := fun hh => hij hh.1.symm
  intro p q pe qe hread
  by_cases hpj : p = j ∧ pe = e2
  · obtain ⟨hp, hpe⟩ := hpj
    subst hp; subst hpe
    rw [nextAt_writeAt_self _ _ _ _ (hlen1 ▸ hj)] at hread
    obtain ⟨hq, hqe⟩ : i = q ∧ e = qe :=
      ⟨congrArg Prod.fst (Option.some.inj hread), congrArg Prod.snd (Option.some.inj hread)⟩
    subst hq; subst hqe
    rw [nextAt_writeAt_ne _ _ _ _ _ _ hij', nextAt_writeAt_self _ _ _ _ hi]
  · rw [nextAt_writeAt_ne _ _ _ _ _ _ hpj] at hread
    by_cases hpi : p = i ∧ pe = e
    · obtain ⟨hp, hpe⟩ := hpi
      subst hp; subst hpe
      rw [nextAt_writeAt_self _ _ _ _ hi] at hread
      obtain ⟨hq, hqe⟩ : j = q ∧ e2 = qe :=
        ⟨congrArg Prod.fst (Option.some.inj hread), congrArg Prod.snd (Option.some.inj hread)⟩
      subst hq; subst hqe
      rw [nextAt_writeAt_self _ _ _ _ (hlen1 ▸ hj)]
    · rw [nextAt_writeAt_ne _ _ _ _ _ _ hpi] at hread
      have hold := hs p q pe qe hread
      by_cases hqj : q = j ∧ qe = e2
      · obtain ⟨hq, hqe⟩ := hqj
        subst hq; subst hqe
        exact absurd hold (by rw [hje]; simp)
      · by_cases hqi : q = i ∧ qe = e
        · obtain ⟨hq, hqe⟩ := hqi
          subst hq; subst hqe
          exact absurd hold (by rw [hie]; simp)
        · rw [nextAt_writeAt_ne _ _ _ _ _ _ hqj, nextAt_writeAt_ne _ _ _ _ _ _ hqi]
          exact hold

/-- The `edge2` loop preserves symmetry when no two edges of `j` can match
edge `e` of `i`: with at most one match possible, the slot of `i` is never
overwritten inside the loop. -/
theorem SymSt_tryMatch_fold (fs : List stl_face_t) (i j : ℕ) (e : Fin 3)
    (hi : i < fs.length) (hj : j < fs.length) (hij : i ≠ j)
    (huniq : ∀ e2 e2' : Fin 3, edge_eq2 (faceAt fs i) (faceAt fs j) e e2 = true →
      edge_eq2 (faceAt fs i) (faceAt fs j) e e2' = true → e2 = e2') :
    ∀ l : List (Fin 3), l.Nodup → ∀ st : AdjState, st.length = fs.length → SymSt st →
      (nextAt st i e = none ∨ ∀ e2 ∈ l, edge_eq2 (faceAt fs i) (faceAt fs j) e e2 = false) →
      SymSt (l.foldl (tryMatch fs i j e) st) ∧
        (l.foldl (tryMatch fs i j e) st).length = fs.length := by
  intro l
  induction l with
  | nil => exact fun _ st hlen hs _ => ⟨hs, hlen⟩
  | cons c cs ih =>
    intro hnd st hlen hs hdisj
    rw [List.foldl_cons]
    by_cases hguard : nextAt st j c = none
    · by_cases hmatch : edge_eq2 (faceAt fs i) (faceAt fs j) e c = true
      · have hie : nextAt st i e = none := by
          rcases hdisj with h | h
          · exact h
          · exact absurd hmatch (by simp [h c (List.mem_cons_self c cs)])
        have hstep : tryMatch fs i j e st c = writeAt (writeAt st i e (j, c)) j c (i, e) := by
          unfold tryMatch
          rw [if_neg (by simpa using hguard), if_pos hmatch]
        rw [hstep]
        refine ih (List.Nodup.of_cons hnd) _
          (by rw [length_writeAt, length_writeAt]; exact hlen)
          (SymSt_write st i j e c hs hij (hlen ▸ hi) (hlen ▸ hj) hie hguard) (Or.inr ?_)
        intro e2 he2
        cases hbe : edge_eq2 (faceAt fs i) (faceAt fs j) e e2
        · rfl
        · have hec : e2 = c := huniq e2 c hbe hmatch
          subst hec
          exact absurd he2 (List.nodup_cons.mp hnd).1
      · have hstep : tryMatch fs i j e st c = st := by
          unfold tryMatch
          rw [if_neg (by simpa using hguard), if_neg hmatch]
        rw [hstep]
        refine ih (List.Nodup.of_cons hnd) st hlen hs ?_
        rcases hdisj with h | h
        · exact Or.inl h
        · exact Or.inr (fun e2 he2 => h e2 (List.mem_cons_of_mem _ he2))
    · have hstep : tryMatch fs i j e st c = st := by
        unfold tryMatch
        rw [if_pos hguard]
      rw [hstep]
      refine ih (List.Nodup.of_cons hnd) st hlen hs ?_
      rcases hdisj with h | h
      · exact Or.inl h
      · exact Or.inr (fun e2 he2 => h e2 (List.mem_cons_of_mem _ he2))

theorem SymSt_matchEdge (fs : List stl_face_t) (i j : ℕ) (e : Fin 3)
    (hi : i < fs.length) (hj : j < fs.length) (hij : i ≠ j) (hu : UniqueMatch fs)
    (st : AdjState) (hlen : st.length = fs.length) (hs : SymSt st) :
    SymSt (matchEdge fs i j st e) ∧ (matchEdge fs i j st e).length = fs.length := by
  unfold matchEdge
  split
  · exact ⟨hs, hlen⟩
  case isFalse hie =>
    push_neg at hie
    exact SymSt_tryMatch_fold fs i j e hi hj hij (hu i hi j hj hij e) edgeList
      (by decide) st hlen hs (Or.inl hie)

theorem SymSt_matchPair (fs : List stl_face_t) (i j : ℕ)
    (hi : i < fs.length) (hj : j < fs.length) (hu : UniqueMatch fs)
    (st : AdjState) (hlen : st.length = fs.length) (hs : SymSt st) :
    SymSt (matchPair fs i st j) ∧ (matchPair fs i st j).length = fs.length := by
  unfold matchPair
  split
  · exact ⟨hs, hlen⟩
  case isFalse hij =>
    refine foldl_preserve (fun st' => SymSt st' ∧ st'.length = fs.length) _ _ ?_ st ⟨hs, hlen⟩
    intro st' e _ h
    exact SymSt_matchEdge fs i j e hi hj hij hu st' h.2 h.1

theorem SymSt_build (fs : List stl_face_t) (hu : UniqueMatch fs) : SymSt (build fs).1 := by
  unfold build
  have hinit : SymSt (initState fs) ∧ (initState fs).length = fs.length := by
    refine ⟨?_, by simp [initState]⟩
    intro p q pe qe hread
    rw [nextAt_initState] at hread
    exact absurd hread (by simp)
  have hstep : ∀ stp : AdjState × List ℕ, ∀ i, i ∈ List.range fs.length →
      (SymSt stp.1 ∧ stp.1.length = fs.length) →
      (SymSt (buildStep fs stp i).1 ∧ (buildStep fs stp i).1.length = fs.length) := by
    intro stp i hmem h
    rw [buildStep_fst]
    unfold pairLoop
    refine foldl_preserve (fun st' => SymSt st' ∧ st'.length = fs.length) _ _ ?_ stp.1 h
    intro st' j hjmem hh
    exact SymSt_matchPair fs i j (List.mem_range.mp hmem) (List.mem_range.mp hjmem) hu st' hh.2 hh.1
  exact (foldl_preserve (fun stp => SymSt stp.1 ∧ stp.1.length = fs.length) _ _ hstep
    (initState fs, []) hinit).1

/-! ## The traversal: growth of the visited set and the output trace -/

theorem TPost_refl (s : TState) : TPost s s := by
  refine ⟨fun _ hx => hx, [], by simp, by simp, ?_, ?_⟩
  · intro x hx
    simp at hx
  · intro x
    simp

theorem TPost_trans (s1 s2 s3 : TState) (h12 : TPost s1 s2) (h23 : TPost s2 s3) :
    TPost s1 s3 := by
  obtain ⟨m12, d1, hout1, hnd1, hnew1, hvis1⟩ := h12
  obtain ⟨m23, d2, hout2, hnd2, hnew2, hvis2⟩ := h23
  refine ⟨fun x hx => m23 x (m12 x hx), d1 ++ d2, by rw [hout2, hout1, List.append_assoc], ?_, ?_, ?_⟩
  · rw [List.map_append, List.nodup_append]
    refine ⟨hnd1, hnd2, ?_⟩
    intro x hx1 hx2
    exact hnew2 x hx2 ((hvis1 x).mpr (Or.inl hx1))
  · intro x hx
    rw [List.map_append, List.mem_append] at hx
    rcases hx with hx | hx
    · exact hnew1 x hx
    · exact fun hmem => hnew2 x hx (m12 x hmem)
  · intro x
    rw [List.map_append, List.mem_append]
    constructor
    · intro hx
      rcases (hvis2 x).mp hx with hx | hx
      · exact Or.inl (Or.inr hx)
      · rcases (hvis1 x).mp hx with hx | hx
        · exact Or.inl (Or.inl hx)
        · exact Or.inr hx
    · rintro ((hx | hx) | hx)
      · exact (hvis2 x).mpr (Or.inr ((hvis1 x).mpr (Or.inl hx)))
      · exact (hvis2 x).mpr (Or.inl hx)
      · exact m23 x ((hvis1 x).mpr (Or.inr hx))

/-- Marking a fresh face used and printing its record. -/
theorem TPost_mark (s : TState) (i : ℕ) (enter : ℤ) (hi : i ∉ s.vis) :
    TPost s ⟨s.vis.insert i, s.out ++ [(i, enter)]⟩ := by
  refine ⟨fun x hx => List.mem_insert_iff.mpr (Or.inr hx), [(i, enter)], rfl, by simp, ?_, ?_⟩
  · intro x hx
    rw [List.map_singleton, List.mem_singleton] at hx
    subst hx
    exact hi
  · intro x
    simp only [List.mem_insert_iff, List.map_singleton, List.mem_singleton]

theorem recurseEdges_TPost (st : AdjState) (recfn : ℕ → ℤ → TState → TState × Option Fault)
    (i : ℕ) (hrec : ∀ j : ℕ, ∀ en : ℤ, ∀ t : TState, j ∉ t.vis → TPost t (recfn j en t).1) :
    ∀ es : List (Fin 3), ∀ s : TState, TPost s (recurseEdges st recfn i es s).1 := by
  intro es
  induction es with
  | nil => intro s; exact TPost_refl s
  | cons e es' ih =>
    intro s
    show TPost s (recurseEdges st recfn i (e :: es') s).1
    rw [recurseEdges]
    cases hn : nextAt st i e with
    | none => exact TPost_refl s
    | some je =>
      by_cases hv : je.1 ∈ s.vis
      · simp only [hv, if_pos]
        exact ih s
      · simp only [hv, if_neg, not_false_iff]
        rcases hrr : recfn je.1 (je.2 : ℤ) s with ⟨s2, fo⟩
        have hpost : TPost s s2 := by
          have := hrec je.1 (je.2 : ℤ) s hv
          rw [hrr] at this
          exact this
        cases fo with
        | none => exact TPost_trans s s2 _ hpost (ih s2)
        | some f => exact hpost

theorem recurse_TPost (st : AdjState) :
    ∀ fuel : ℕ, ∀ i : ℕ, ∀ enter : ℤ, ∀ s : TState, i ∉ s.vis →
      TPost s (recurse st fuel i enter s).1 := by
  intro fuel
  induction fuel with
  | zero => intro i enter s _; exact TPost_refl s
  | succ fuel' ih =>
    intro i enter s hi
    show TPost s (recurse st (fuel' + 1) i enter s).1
    rw [recurse]
    exact TPost_trans s _ _ (TPost_mark s i enter hi)
      (recurseEdges_TPost st (recurse st fuel') i (fun j en t ht => ih j en t ht) edgeList _)

theorem recurseEdges_trace (st : AdjState) (recfn : ℕ → ℤ → TState → TState × Option Fault)
    (i : ℕ)
    (hrec : ∀ j : ℕ, ∀ en : ℤ, ∀ t : TState, ∀ rec : ℕ × ℤ,
      rec ∈ ((recfn j en t).1).out → rec ∈ t.out ∨ rec = (j, en) ∨ EnterFromSlot st rec) :
    ∀ es : List (Fin 3), ∀ s : TState, ∀ rec : ℕ × ℤ,
      rec ∈ ((recurseEdges st recfn i es s).1).out → rec ∈ s.out ∨ EnterFromSlot st rec := by
  intro es
  induction es with
  | nil => intro s rec h; exact Or.inl h
  | cons e es' ih =>
    intro s rec h
    rw [recurseEdges] at h
    revert h
    cases hn : nextAt st i e with
    | none => exact fun h => Or.inl h
    | some je =>
      by_cases hv : je.1 ∈ s.vis
      · simp only [hv, if_pos]
        exact ih s rec
      · simp only [hv, if_neg, not_false_iff]
        rcases hrr : recfn je.1 (je.2 : ℤ) s with ⟨s2, fo⟩
        have hmid : ∀ r : ℕ × ℤ, r ∈ s2.out →
            r ∈ s.out ∨ EnterFromSlot st r := by
          intro r hr
          have := hrec je.1 (je.2 : ℤ) s r (by rw [hrr]; exact hr)
          rcases this with h1 | h1 | h1
          · exact Or.inl h1
          · subst h1
            exact Or.inr ⟨i, e, je.2, by rw [hn], rfl⟩
          · exact Or.inr h1
        cases fo with
        | none =>
          intro h
          rcases ih s2 rec h with h1 | h1
          · exact hmid rec h1
          · exact Or.inr h1
        | some f => exact fun h => hmid rec h

theorem recurse_trace (st : AdjState) :
    ∀ fuel : ℕ, ∀ i : ℕ, ∀ enter : ℤ, ∀ s : TState, ∀ rec : ℕ × ℤ,
      rec ∈ ((recurse st fuel i enter s).1).out →
      rec ∈ s.out ∨ rec = (i, enter) ∨ EnterFromSlot st rec := by
  intro fuel
  induction fuel with
  | zero => intro i enter s rec h; exact Or.inl h
  | succ fuel' ih =>
    intro i enter s rec h
    rw [recurse] at h
    have := recurseEdges_trace st (recurse st fuel') i ih edgeList
      ⟨s.vis.insert i, s.out ++ [(i, enter)]⟩ rec h
    rcases this with h1 | h1
    · rw [List.mem_append] at h1
      rcases h1 with h1 | h1
      · exact Or.inl h1
      · rw [List.mem_singleton] at h1
        exact Or.inr (Or.inl h1)
    · exact Or.inr (Or.inr h1)

theorem recurseEdges_clos (st : AdjState) (recfn : ℕ → ℤ → TState → TState × Option Fault)
    (i : ℕ)
    (hrec : ∀ j : ℕ, ∀ en : ℤ, ∀ t t' : TState, recfn j en t = (t', none) →
      (∀ x, x ∈ t.vis → x ∈ t'.vis) ∧ j ∈ t'.vis ∧ ClosT st t t') :
    ∀ es : List (Fin 3), ∀ s s' : TState, recurseEdges st recfn i es s = (s', none) →
      (∀ x, x ∈ s.vis → x ∈ s'.vis) ∧ ClosT st s s' ∧
      (∀ e ∈ es, ∀ j : ℕ, ∀ e2 : Fin 3, nextAt st i e = some (j, e2) → j ∈ s'.vis) := by
  intro es
  induction es with
  | nil =>
    intro s s' h
    obtain rfl : s = s' := congrArg Prod.fst h
    refine ⟨fun _ hx => hx, ?_, ?_⟩
    · intro x hx hnx
      exact absurd hx (fun hh => hnx hh)
    · intro e he
      exact absurd he (by simp)
  | cons e es' ih =>
    intro s s' h
    rw [recurseEdges] at h
    revert h
    cases hn : nextAt st i e with
    | none => intro h; exact absurd (congrArg Prod.snd h) (by simp)
    | some je =>
      by_cases hv : je.1 ∈ s.vis
      · simp only [hv, if_pos]
        intro h
        obtain ⟨hmono, hclos, hcov⟩ := ih s s' h
        refine ⟨hmono, hclos, ?_⟩
        intro e' he' j e2 hread
        rcases List.mem_cons.mp he' with he' | he'
        · subst he'
          rw [hn] at hread
          obtain ⟨hj, _⟩ : je.1 = j ∧ je.2 = e2 :=
            ⟨congrArg Prod.fst (Option.some.inj hread), congrArg Prod.snd (Option.some.inj hread)⟩
          exact hj ▸ hmono je.1 hv
        · exact hcov e' he' j e2 hread
      · simp only [hv, if_neg, not_false_iff]
        rcases hrr : recfn je.1 (je.2 : ℤ) s with ⟨s2, fo⟩
        cases fo with
        | none =>
          intro h
          obtain ⟨hm1, hmem1, hc1⟩ := hrec je.1 (je.2 : ℤ) s s2 hrr
          obtain ⟨hm2, hc2, hcov⟩ := ih s2 s' h
          refine ⟨fun x hx => hm2 x (hm1 x hx), ?_, ?_⟩
          · intro x hx hnx e' j e2 hread
            by_cases hx2 : x ∈ s2.vis
            · exact hm2 _ (hc1 x hx2 hnx e' j e2 hread)
            · exact hc2 x hx hx2 e' j e2 hread
          · intro e' he' j e2 hread
            rcases List.mem_cons.mp he' with he' | he'
            · subst he'
              rw [hn] at hread
              obtain hj : je.1 = j := congrArg Prod.fst (Option.some.inj hread)
              exact hj ▸ hm2 je.1 hmem1
            · exact hcov e' he' j e2 hread
        | some f =>
          intro h
          exact absurd (congrArg Prod.snd h) (by simp)

theorem recurse_clos (st : AdjState) :
    ∀ fuel : ℕ, ∀ i : ℕ, ∀ enter : ℤ, ∀ s s' : TState,
      recurse st fuel i enter s = (s', none) →
      (∀ x, x ∈ s.vis → x ∈ s'.vis) ∧ i ∈ s'.vis ∧ ClosT st s s' := by
  intro fuel
  induction fuel with
  | zero =>
    intro i enter s s' h
    exact absurd (congrArg Prod.snd h) (by simp [recurse])
  | succ fuel' ih =>
    intro i enter s s' h
    rw [recurse] at h
    obtain ⟨hmono, hclos, hcov⟩ := recurseEdges_clos st (recurse st fuel') i ih edgeList
      ⟨s.vis.insert i, s.out ++ [(i, enter)]⟩ s' h
    have hall : ∀ e : Fin 3, e ∈ edgeList := by decide
    refine ⟨fun x hx => hmono x (List.mem_insert_iff.mpr (Or.inr hx)),
      hmono i (List.mem_insert_self i s.vis), ?_⟩
    intro x hx hnx e j e2 hread
    by_cases hxi : x = i
    · subst hxi
      exact hcov e (hall e) j e2 hread
    · exact hclos x hx
        (fun hh => (List.mem_insert_iff.mp hh).elim hxi hnx) e j e2 hread

/-! ## Fuel sufficiency: on a closed in-range adjacency the recursion
terminates without fault once the fuel covers the unvisited faces -/

/-- A nodup list of naturals below `n` cannot be longer than `n`. -/
theorem nodup_lt_length_le (l : List ℕ) (n : ℕ) (hnd : l.Nodup) (hlt : ∀ x ∈ l, x < n) :
    l.length ≤ n := by
  have hsub : l ⊆ List.range n := fun x hx => List.mem_range.mpr (hlt x hx)
  have := (List.subperm_of_subset hnd hsub).length_le
  simpa using this

theorem recurseEdges_success (st : AdjState) (n : ℕ) (fuel : ℕ)
    (recfn : ℕ → ℤ → TState → TState × Option Fault)
    (hcl : ClosedAdj st n) (hrg : InRangeAdj st n)
    (hrec : ∀ j : ℕ, ∀ en : ℤ, ∀ t : TState, j < n → j ∉ t.vis → t.vis.Nodup →
      (∀ x ∈ t.vis, x < n) → n ≤ fuel + t.vis.length →
      ∃ t', recfn j en t = (t', none) ∧ t'.vis.Nodup ∧ (∀ x ∈ t'.vis, x < n) ∧
        (∀ x, x ∈ t.vis → x ∈ t'.vis)) :
    ∀ es : List (Fin 3), ∀ i : ℕ, ∀ s : TState, i < n → s.vis.Nodup →
      (∀ x ∈ s.vis, x < n) → n ≤ fuel + s.vis.length →
      ∃ s', recurseEdges st recfn i es s = (s', none) ∧ s'.vis.Nodup ∧
        (∀ x ∈ s'.vis, x < n) ∧ (∀ x, x ∈ s.vis → x ∈ s'.vis) := by
  intro es
  induction es with
  | nil =>
    intro i s _ hnd hbnd _
    exact ⟨s, by rw [recurseEdges], hnd, hbnd, fun _ hx => hx⟩
  | cons e es' ih =>
    intro i s hi hnd hbnd hfuel
    rcases hn : nextAt st i e with _ | je
    · exact absurd hn (hcl i hi e)
    · by_cases hv : je.1 ∈ s.vis
      · obtain ⟨s', heq, hnd', hbnd', hmono⟩ := ih i s hi hnd hbnd hfuel
        refine ⟨s', ?_, hnd', hbnd', hmono⟩
        rw [recurseEdges, hn]
        simp only [hv, if_pos]
        exact heq
      · have hj : je.1 < n := hrg i e je.1 je.2 (by rw [hn])
        obtain ⟨s2, heq2, hnd2, hbnd2, hmono2⟩ :=
          hrec je.1 (je.2 : ℤ) s hj hv hnd hbnd hfuel
        have hfuel2 : n ≤ fuel + s2.vis.length := by
          have hle : s.vis.length ≤ s2.vis.length :=
            (List.subperm_of_subset hnd (fun x hx => hmono2 x hx)).length_le
          omega
        obtain ⟨s', heq', hnd', hbnd', hmono'⟩ := ih i s2 hi hnd2 hbnd2 hfuel2
        refine ⟨s', ?_, hnd', hbnd', fun x hx => hmono' x (hmono2 x hx)⟩
        rw [recurseEdges, hn]
        simp only [hv, if_neg, not_false_iff]
        rw [heq2]
        exact heq'

theorem recurse_success (st : AdjState) (n : ℕ) (hcl : ClosedAdj st n) (hrg : InRangeAdj st n) :
    ∀ fuel : ℕ, ∀ i : ℕ, ∀ enter : ℤ, ∀ s : TState, i < n → i ∉ s.vis → s.vis.Nodup →
      (∀ x ∈ s.vis, x < n) → n ≤ fuel + s.vis.length →
      ∃ s', recurse st fuel i enter s = (s', none) ∧ s'.vis.Nodup ∧
        (∀ x ∈ s'.vis, x < n) ∧ (∀ x, x ∈ s.vis → x ∈ s'.vis) := by
  intro fuel
  induction fuel with
  | zero =>
    intro i enter s hi hnv hnd hbnd hfuel
    exfalso
    have hconsnd : (i :: s.vis).Nodup := List.nodup_cons.mpr ⟨hnv, hnd⟩
    have hconslt : ∀ x ∈ i :: s.vis, x < n := by
      intro x hx
      rcases List.mem_cons.mp hx with hx | hx
      · exact hx ▸ hi
      · exact hbnd x hx
    have := nodup_lt_length_le (i :: s.vis) n hconsnd hconslt
    simp only [List.length_cons] at this
    omega
  | succ fuel' ih =>
    intro i enter s hi hnv hnd hbnd hfuel
    have hnd1 : (s.vis.insert i).Nodup := List.Nodup.insert hnd
    have hbnd1 : ∀ x ∈ s.vis.insert i, x < n := by
      intro x hx
      rcases List.mem_insert_iff.mp hx with hx | hx
      · exact hx ▸ hi
      · exact hbnd x hx
    have hlen1 : (s.vis.insert i).length = s.vis.length + 1 :=
      List.length_insert_of_not_mem hnv
    have hfuel1 : n ≤ fuel' + (s.vis.insert i).length := by
      rw [hlen1]; omega
    obtain ⟨s', heq, hnd', hbnd', hmono⟩ := recurseEdges_success st n fuel'
      (recurse st fuel') hcl hrg ih edgeList i
      ⟨s.vis.insert i, s.out ++ [(i, enter)]⟩ hi hnd1 hbnd1 hfuel1
    refine ⟨s', ?_, hnd', hbnd', ?_⟩
    · rw [recurse]
      exact heq
    · intro x hx
      exact hmono x (List.mem_insert_iff.mpr (Or.inr hx))

/-! ## Vertex deduplication bound -/

theorem length_stl_vertex_find (vs : List v3_t) (p : v3_t) :
    (stl_vertex_find vs p).length ≤ vs.length + 1 := by
  unfold stl_vertex_find
  split
  · exact Nat.le_succ _
  · simp

theorem uniqueVertices_foldl_le (ts : List stl_face_t) :
    ∀ vs : List v3_t,
      (ts.foldl (fun vs t =>
        stl_vertex_find (stl_vertex_find (stl_vertex_find vs (t.p 0)) (t.p 1)) (t.p 2)) vs).length
        ≤ vs.length + 3 * ts.length := by
  induction ts with
  | nil => intro vs; simp
  | cons t ts' ih =>
    intro vs
    rw [List.foldl_cons]
    have h3 : (stl_vertex_find (stl_vertex_find (stl_vertex_find vs (t.p 0)) (t.p 1)) (t.p 2)).length
        ≤ vs.length + 3 := by
      have h1 := length_stl_vertex_find vs (t.p 0)
      have h2 := length_stl_vertex_find (stl_vertex_find vs (t.p 0)) (t.p 1)
      have h := length_stl_vertex_find (stl_vertex_find (stl_vertex_find vs (t.p 0)) (t.p 1)) (t.p 2)
      omega
    have := ih (stl_vertex_find (stl_vertex_find (stl_vertex_find vs (t.p 0)) (t.p 1)) (t.p 2))
    calc _ ≤ _ := this
    _ ≤ vs.length + 3 + 3 * ts'.length := by omega
    _ = vs.length + 3 * (ts'.length + 1) := by ring
    _ = vs.length + 3 * (t :: ts').length := by rw [List.length_cons]

/-- Out-trace of a non-zero-fuel call: the record of the entered face, with
the `start_edge` it was entered on, is emitted first. -/
theorem recurse_out_extend (st : AdjState) (fuel : ℕ) (i : ℕ) (enter : ℤ) (s : TState) :
    ∃ d : List (ℕ × ℤ),
      ((recurse st (fuel + 1) i enter s).1).out = s.out ++ [(i, enter)] ++ d := by
  rw [recurse]
  obtain ⟨-, d, hout, -, -, -⟩ := recurseEdges_TPost st (recurse st fuel) i
    (fun j en t ht => recurse_TPost st fuel j en t ht) edgeList
    ⟨s.vis.insert i, s.out ++ [(i, enter)]⟩
  exact ⟨d, by rw [hout]⟩

/-! ## The claims -/

/-- C2: `edge_eq2` declares the oriented edges `(e0, e0+1 mod 3)` of `t0`
and `(e1, e1+1 mod 3)` of `t1` to match exactly when `t0`'s first corner
equals `t1`'s second corner and `t0`'s second corner equals `t1`'s first
corner, under the per-axis vertex equality — the opposite-direction winding
rule. -/
theorem C2_edge_eq2_iff (t0 t1 : stl_face_t) (e0 e1 : Fin 3) :
    edge_eq2 t0 t1 e0 e1 = true ↔
      v3_eq (t0.p e0) (t1.p (e1 + 1)) = true ∧ v3_eq (t0.p (e0 + 1)) (t1.p e1) = true := by
  simp [edge_eq2]

/-- C3: two points are `v3_eq`-equal iff on each of the three axes
independently the coordinate difference is strictly below `EPS` in absolute
value; in particular a difference of exactly `EPS` on any axis makes the
points distinct (strict inequality). -/
theorem C3_v3_eq_per_axis (v1 v2 : v3_t) :
    (v3_eq v1 v2 = true ↔
      |v1.p 0 - v2.p 0| < EPS ∧ |v1.p 1 - v2.p 1| < EPS ∧ |v1.p 2 - v2.p 2| < EPS) ∧
    ((|v1.p 0 - v2.p 0| = EPS ∨ |v1.p 1 - v2.p 1| = EPS ∨ |v1.p 2 - v2.p 2| = EPS) →
      v3_eq v1 v2 = false) := by
  refine ⟨v3_eq_true_iff v1 v2, ?_⟩
  intro hax
  rw [Bool.eq_false_iff]
  intro htrue
  obtain ⟨h0, h1, h2⟩ := (v3_eq_true_iff v1 v2).mp htrue
  rcases hax with h | h | h
  · exact lt_irrefl EPS (h ▸ h0)
  · exact lt_irrefl EPS (h ▸ h1)
  · exact lt_irrefl EPS (h ▸ h2)

/-- C1 (amended): the neighbor links produced by the adjacency pass are
symmetric — if face `i`'s slot `e` holds `(j, e2)` then face `j`'s slot
`e2` holds `(i, e)` — provided no edge of a face admits two distinct
oriented-edge matches against the same other face (`UniqueMatch`).
Without that proviso the inner `edge2` loop can overwrite `f->next_edge`
after the paired slot was already set; `C1_symmetry_counterexample` below
exhibits the resulting asymmetry. -/
theorem C1_symmetry_of_unique_match (fs : List stl_face_t) (hu : UniqueMatch fs)
    (i j : ℕ) (e e2 : Fin 3) (h : buildAdj fs i e = some (j, e2)) :
    buildAdj fs j e2 = some (i, e) :=
  SymSt_build fs hu i j e e2 h

/-- C9: self-matching is excluded from adjacency construction — no neighbor
slot of a face ever refers to the face itself (the `i == j` skip at
`src/unfold.c` lines 222-223; `stl_find_neighbors` in `src/stl_3d.c` has
the analogous `f1 == f2` skip). -/
theorem C9_no_self_adjacency (fs : List stl_face_t) (i j : ℕ) (e e2 : Fin 3)
    (h : buildAdj fs i e = some (j, e2)) : i ≠ j :=
  ((AdjInv_build fs).2 i j e e2 h).2.2.1

/-- C5: descending into an unvisited neighbor passes the neighbor's own
matching edge index: every stored pair `(j, e2)` records an oriented-edge
match between the owner's edge and `j`'s edge `e2`, and every non-root
record of the traversal carries as its entering edge the `e2` of the slot
it was discovered through — not the parent's edge index. -/
theorem C5_entering_edge (fs : List stl_face_t) :
    (∀ i j : ℕ, ∀ e e2 : Fin 3, buildAdj fs i e = some (j, e2) →
      edge_eq2 (faceAt fs i) (faceAt fs j) e e2 = true) ∧
    (∀ r : ℕ, ∀ rec : ℕ × ℤ, rec ∈ ((runTraverse fs r).1).out →
      rec = (r, 0) ∨ ∃ p : ℕ, ∃ e e2 : Fin 3,
        buildAdj fs p e = some (rec.1, e2) ∧ rec.2 = (e2 : ℤ)) := by
  constructor
  · intro i j e e2 h
    exact ((AdjInv_build fs).2 i j e e2 h).2.2.2
  · intro r rec hmem
    have hmem' : rec ∈ ((recurse (build fs).1 (fs.length + 1) r 0 ⟨[], []⟩).1).out := hmem
    rcases recurse_trace (build fs).1 (fs.length + 1) r 0 ⟨[], []⟩ rec hmem' with h | h | h
    · exact absurd h (by simp)
    · exact Or.inl h
    · obtain ⟨p, e, e2, h1, h2⟩ := h
      exact Or.inr ⟨p, e, e2, h1, h2⟩

/-- C6 (amended): the record the traversal emits first is the root's, and
its entering-edge value is 0 — the literal `main` passes at
`recurse(&faces[0], 0)` — which coincides with valid edge index 0 rather
than being a sentinel distinct from 0, 1, 2. -/
theorem C6_root_record_enter_zero (fs : List stl_face_t) (r : ℕ) :
    ((runTraverse fs r).1).out.head? = some (r, 0) := by
  obtain ⟨d, hd⟩ := recurse_out_extend (build fs).1 fs.length r 0 ⟨[], []⟩
  unfold runTraverse
  rw [hd]
  simp

/-- C4 (amended): in any run (faulting or not) the emitted faces are
pairwise distinct and are exactly the faces marked used — no face is
re-entered or re-emitted; and when every face of the mesh has all three
neighbor slots filled (so the NULL dereference of `f2->used` cannot be
reached) and every face is reachable from the root, the traversal returns
without fault having visited all `fs.length` faces.  The closedness proviso
is forced by `C4_connected_visit_counterexample`: on a connected open mesh
the C code crashes instead of completing. -/
theorem C4_traversal_amended (fs : List stl_face_t) (r : ℕ) :
    (∀ s : TState, ∀ f : Option Fault, runTraverse fs r = (s, f) →
      (s.out.map Prod.fst).Nodup ∧ (∀ x : ℕ, x ∈ s.vis ↔ x ∈ s.out.map Prod.fst)) ∧
    (r < fs.length →
      (∀ i, i < fs.length → ∀ e : Fin 3, buildAdj fs i e ≠ none) →
      (∀ j, j < fs.length → Relation.ReflTransGen (adjStep fs) r j) →
      (runTraverse fs r).2 = none ∧ (runTraverse fs r).1.vis.length = fs.length ∧
        ((runTraverse fs r).1.out.map Prod.fst).Nodup) := by
  constructor
  · intro s f h
    have hpost : TPost ⟨[], []⟩ (runTraverse fs r).1 :=
      recurse_TPost (build fs).1 (fs.length + 1) r 0 ⟨[], []⟩ (by simp)
    have hs : (runTraverse fs r).1 = s := by rw [h]
    rw [hs] at hpost
    obtain ⟨-, d, hout, hnd, -, hvis⟩ := hpost
    have hout' : s.out = d := by simpa using hout
    constructor
    · rw [hout']
      exact hnd
    · intro x
      rw [hout']
      have := hvis x
      simpa using this
  · intro hr hcl hconn
    have hrg : InRangeAdj (build fs).1 fs.length :=
      fun i e j e2 h => ((AdjInv_build fs).2 i j e e2 h).2.1
    have hcl' : ClosedAdj (build fs).1 fs.length := fun i hi e => hcl i hi e
    obtain ⟨s, heq, hnd, hbnd, -⟩ := recurse_success (build fs).1 fs.length hcl' hrg
      (fs.length + 1) r 0 ⟨[], []⟩ hr (by simp) (by simp) (by simp)
      (by simp)
    obtain ⟨-, hrmem, hclos⟩ := recurse_clos (build fs).1 (fs.length + 1) r 0 ⟨[], []⟩ s heq
    have hreach : ∀ j : ℕ, Relation.ReflTransGen (adjStep fs) r j → j ∈ s.vis := by
      intro j hj
      induction hj with
      | refl => exact hrmem
      | tail h1 h2 ih =>
        obtain ⟨e, e2, hbe⟩ := h2
        exact hclos _ ih (by simp) e _ e2 hbe
    have hall : ∀ j, j < fs.length → j ∈ s.vis := fun j hj => hreach j (hconn j hj)
    have hlen : s.vis.length = fs.length := by
      refine le_antisymm (nodup_lt_length_le s.vis fs.length hnd hbnd) ?_
      have hsub : List.range fs.length ⊆ s.vis :=
        fun x hx => hall x (List.mem_range.mp hx)
      have := (List.subperm_of_subset (List.nodup_range fs.length) hsub).length_le
      simpa using this
    have hpost : TPost ⟨[], []⟩ (runTraverse fs r).1 :=
      recurse_TPost (build fs).1 (fs.length + 1) r 0 ⟨[], []⟩ (by simp)
    have hs : (runTraverse fs r).1 = s := congrArg Prod.fst heq
    rw [hs] at hpost
    obtain ⟨-, d, hout, hndout, -, -⟩ := hpost
    refine ⟨congrArg Prod.snd heq, ?_, ?_⟩
    · rw [hs]
      exact hlen
    · rw [hs]
      have hout' : s.out = d := by simpa using hout
      rw [hout']
      exact hndout

/-- C10 (amended): the number of unique vertices `stl_3d_parse` accumulates
is bounded by `3 * num_triangles` — the number of corners processed — not
by `num_triangles`, the capacity it allocates for the vertex array;
`C10_vertex_capacity_counterexample` shows the allocated bound exceeded. -/
theorem C10_vertex_bound (ts : List stl_face_t) :
    (uniqueVertices ts).length ≤ 3 * ts.length := by
  have := uniqueVertices_foldl_le ts []
  simpa [uniqueVertices] using this

section ConcreteRuns

attribute [local semireducible] Rat.sub Rat.add Rat.mul Rat.inv

set_option maxRecDepth 100000

/-- C1 counterexample: on `badPair` the degenerate edge 0 of face 0 matches
edges 0, 1 and 2 of face 1 in one inner loop; each later match overwrites
`f->next_edge[0]` of face 0 after face 1's slot was already set.  Face 1's
slot 0 holds `(0, 0)`, but face 0's slot 0 holds `(1, 2)`, not `(1, 0)`:
the links are not symmetric after construction. -/
theorem C1_symmetry_counterexample :
    buildAdj badPair 1 0 = some (0, 0) ∧ ¬ (buildAdj badPair 0 0 = some (1, 0)) := by
  decide

/-- Witness for C1: `pillow` satisfies `UniqueMatch`, and the symmetry
theorem applied to its slot `(0,0) ↦ (1,2)` yields slot `(1,2) ↦ (0,0)`. -/
theorem C1_symmetry_witness :
    UniqueMatch pillow ∧ buildAdj pillow 1 2 = some (0, 0) :=
  ⟨by unfold UniqueMatch; decide,
    C1_symmetry_of_unique_match pillow (by unfold UniqueMatch; decide) 0 1 0 2 (by decide)⟩

/-- Witness for C2: face 0's oriented edge 0 of `pillow` matches face 1's
oriented edge 2, by the two corner equalities the iff requires. -/
theorem C2_edge_eq2_witness :
    edge_eq2 (faceAt pillow 0) (faceAt pillow 1) 0 2 = true :=
  (C2_edge_eq2_iff (faceAt pillow 0) (faceAt pillow 1) 0 2).mpr ⟨by decide, by decide⟩

/-- Witness for C3: points differing by exactly `EPS` on the x axis and
equal on the other two axes are distinct. -/
theorem C3_epsilon_boundary_witness : v3_eq (pt EPS 0 0) (pt 0 0 0) = false :=
  (C3_v3_eq_per_axis (pt EPS 0 0) (pt 0 0 0)).2
    (Or.inl (by
      rw [show (pt EPS 0 0).p 0 - (pt 0 0 0).p 0 = EPS from by decide]
      exact abs_of_pos (by norm_num [EPS])))

/-- C4 counterexample: `fan3` is a connected mesh (all three faces are
reachable from face 0), yet the traversal dereferences the NULL neighbor
pointer of face 0's empty slot 0 and crashes having visited only 1 of its
3 faces — the claim fails for connected meshes that are not closed. -/
theorem C4_connected_visit_counterexample :
    Relation.ReflTransGen (adjStep fan3) 0 1 ∧ Relation.ReflTransGen (adjStep fan3) 0 2 ∧
    (runTraverse fan3 0).2 = some Fault.nullDeref ∧
    (runTraverse fan3 0).1.vis.length = 1 ∧ fan3.length = 3 :=
  ⟨Relation.ReflTransGen.single ⟨1, 0, by decide⟩,
   Relation.ReflTransGen.tail
     (Relation.ReflTransGen.single (show adjStep fan3 0 1 from ⟨1, 0, by decide⟩))
     (show adjStep fan3 1 2 from ⟨1, 0, by decide⟩),
   by decide, by decide, by decide⟩

/-- Witness for C4: on the closed connected mesh `pillow` the traversal from
root 0 completes without fault and visits both faces exactly once. -/
theorem C4_traversal_witness :
    (runTraverse pillow 0).2 = none ∧ (runTraverse pillow 0).1.vis.length = pillow.length ∧
      ((runTraverse pillow 0).1.out.map Prod.fst).Nodup :=
  (C4_traversal_amended pillow 0).2 (by decide) (by decide)
    (by
      intro j hj
      have hj2 : j < 2 := lt_of_lt_of_eq hj (by decide)
      interval_cases j
      · exact Relation.ReflTransGen.refl
      · exact Relation.ReflTransGen.single ⟨0, 2, by decide⟩)

/-- Witness for C5: the non-root record `(1, 2)` of the `pillow` traversal
carries as entering edge the stored matching edge index of a slot that
points at face 1. -/
theorem C5_entering_edge_witness :
    ((1 : ℕ), (2 : ℤ)) = ((0 : ℕ), (0 : ℤ)) ∨
      ∃ p : ℕ, ∃ e e2 : Fin 3,
        buildAdj pillow p e = some (((1 : ℕ), (2 : ℤ)).1, e2) ∧
        ((1 : ℕ), (2 : ℤ)).2 = (e2 : ℤ) :=
  (C5_entering_edge pillow).2 0 (1, 2) (by decide)

/-- C6 counterexample: the root record of the `pillow` traversal has
entering-edge value 0 — a valid edge index — so no sentinel distinct from
0, 1, 2 is emitted for the root. -/
theorem C6_sentinel_counterexample :
    ((runTraverse pillow 0).1).out.head? = some ((0 : ℕ), (0 : ℤ)) ∧
    ¬ ((0 : ℤ) ≠ 0 ∧ (0 : ℤ) ≠ 1 ∧ (0 : ℤ) ≠ 2) :=
  ⟨by decide, fun hh => hh.1 rfl⟩

/-- C7: on a single isolated triangle the adjacency pass emits the
missing-edges diagnostic for face 0 (naming only the face, not the edge
indices) and the traversal then dereferences the NULL neighbor pointer of
slot 0 — it crashes instead of skipping the empty slots. -/
theorem C7_open_mesh_crash :
    (build tri1).2 = [0] ∧
    runTraverse tri1 0 = (⟨[0], [(0, 0)]⟩, some Fault.nullDeref) := by
  decide

/-- C8: the traversal of `twoPillows` (two disjoint closed components)
terminates normally having visited only 2 of 4 faces, with exactly the same
caller-visible outcome — normal termination and the constant return value
0 — as the complete traversal of `pillow`; nothing exposes visited count
versus total. -/
theorem C8_return_hides_partial_visit :
    (runTraverse twoPillows 0).2 = none ∧ (runTraverse twoPillows 0).1.vis.length = 2 ∧
    twoPillows.length = 4 ∧
    (runTraverse pillow 0).2 = none ∧ (runTraverse pillow 0).1.vis.length = 2 ∧
    pillow.length = 2 ∧ recurseReturn = 0 := by
  decide

/-- Witness for C9: face 0 of `pillow` links to face 1, a face other than
itself. -/
theorem C9_no_self_adjacency_witness :
    buildAdj pillow 0 0 = some (1, 2) ∧ (0 : ℕ) ≠ 1 :=
  ⟨by decide, C9_no_self_adjacency pillow 0 1 0 2 (by decide)⟩

/-- C10 counterexample: one triangle with three distinct corners yields 3
unique vertices, exceeding `num_triangles = 1`, the capacity
`stl_3d_parse` allocates for the vertex array. -/
theorem C10_vertex_capacity_counterexample :
    (uniqueVertices tri1).length = 3 ∧ tri1.length = 1 ∧
    ¬ ((uniqueVertices tri1).length ≤ tri1.length) := by
  decide

end ConcreteRuns
